import Mathlib

/-!
Shallow embedding of `src/src/lib.rs` (crate `next_prime`).

The Rust code works on `u64`. Two embeddings are given side by side:
an exact one over `Nat` (`usqrt`, `is_prime`, `next_prime`), which
coincides with the `u64` semantics whenever no intermediate value
reaches `2^64`, and a checked one (`usqrtChk`, `is_primeChk`,
`next_primeChk`) in which every arithmetic step the Rust code performs
on `u64` is guarded by an explicit `< 2^64` test and `none` marks an
overflow, i.e. a debug-build panic (a release build wraps the same
step and computes garbage from then on). Bridge lemmas prove the two
embeddings agree wherever the checked one returns `some`-values, and a
separate instrumented checker (`usqrtOk`) records whether the
intermediate sums and products of `usqrt` stay below `2^64`.

The two `while` loops and the trial-division iterator are embedded as
fuel-indexed structural recursions; each caller passes fuel that is
provably larger than the number of iterations the loop performs, so the
fuel-exhaustion branch (which returns the same value as the loop-exit
branch, resp. a default) is never reached on the arguments used.
-/

/-- Mathematical ceiling square root: the smallest `r` with `r * r ≥ n`,
used as the specification value `⌈√n⌉` that the claims compare against. -/
def ceilSqrt (n : Nat) : Nat :=
  if Nat.sqrt n * Nat.sqrt n = n then Nat.sqrt n else Nat.sqrt n + 1

/-- The `while low < high` loop of `usqrt`, together with the code after
the loop (`if mid * mid == n { mid } else { high }`).  The state is
`(low, high, mid)` where `mid` is the last value assigned to `mid`.
`fuel` bounds the number of iterations; when `high + 1 - low ≤ fuel`
the fuel never runs out before the loop condition fails. -/
def usqrtGo (n : Nat) : Nat → Nat → Nat → Nat → Nat
  | 0, _, high, mid => if mid * mid = n then mid else high
  | fuel + 1, low, high, mid =>
      if low < high then
        let m := (low + high) / 2
        if m * m = n then m
        else if n < m * m then usqrtGo n fuel low (m - 1) m
        else usqrtGo n fuel (m + 1) high m
      else if mid * mid = n then mid else high

/-- `fn usqrt(n: u64) -> u64`: binary search with
`low = 1`, `high = n`, `mid = (low + high) / 2` computed before the loop. -/
def usqrt (n : Nat) : Nat :=
  usqrtGo n (n + 2) 1 n ((1 + n) / 2)

/-- The `(lower..(upper + 1)).step_by(2).all(|d| n % d != 0)` iterator of
`is_prime`: trial division by `d, d + 2, d + 4, ...` while `d ≤ bound`,
short-circuiting on the first divisor found. -/
def trialDiv (n : Nat) : Nat → Nat → Nat → Bool
  | 0, _, _ => true
  | fuel + 1, d, bound =>
      if bound < d then true
      else if n % d = 0 then false
      else trialDiv n fuel (d + 2) bound

/-- `fn is_prime(n: u64) -> bool`. -/
def is_prime (n : Nat) : Bool :=
  if n = 2 ∨ n = 3 then true
  else if n % 2 = 0 ∨ n ≤ 1 then false
  else trialDiv n (usqrt n + 2) 3 (usqrt n)

/-- The `while !is_prime(n) { n += 2 }` loop of `next_prime`; on fuel
exhaustion it returns the current candidate (never reached for the fuel
`next_prime` supplies, by Bertrand's postulate). -/
def npLoop : Nat → Nat → Nat
  | 0, n => n
  | fuel + 1, n => if is_prime n then n else npLoop fuel (n + 2)

/-- `pub fn next_prime(mut n: u64) -> u64`. -/
def next_prime (n : Nat) : Nat :=
  if n ≤ 2 then 2
  else
    let m := if n % 2 = 0 then n + 1 else n
    npLoop m m

/-- Instrumented mirror of `usqrtGo` that returns `true` iff every
intermediate sum `low + high` and product `mid * mid` computed along the
execution path stays below `2^64 = 18446744073709551616`, i.e. iff the
corresponding `u64` arithmetic in the Rust code does not overflow. -/
def usqrtGoOk (n : Nat) : Nat → Nat → Nat → Nat → Bool
  | 0, _, _, mid => decide (mid * mid < 18446744073709551616)
  | fuel + 1, low, high, mid =>
      if low < high then
        decide (low + high < 18446744073709551616) &&
          (let m := (low + high) / 2
           decide (m * m < 18446744073709551616) &&
             (if m * m = n then true
              else if n < m * m then usqrtGoOk n fuel low (m - 1) m
              else usqrtGoOk n fuel (m + 1) high m))
      else decide (mid * mid < 18446744073709551616)

/-- `true` iff no intermediate computation of `usqrt n` (including the
initial `low + high = 1 + n` computed before the loop) leaves the `u64`
range. -/
def usqrtOk (n : Nat) : Bool :=
  decide (1 + n < 18446744073709551616) && usqrtGoOk n (n + 2) 1 n ((1 + n) / 2)

/-- Instrumented mirror of `trialDiv` that returns `true` iff every
divisor `d` used in a modulo operation along the execution path is
nonzero. -/
def trialDivDivPos (n : Nat) : Nat → Nat → Nat → Bool
  | 0, _, _ => true
  | fuel + 1, d, bound =>
      if bound < d then true
      else
        decide (0 < d) &&
          (if n % d = 0 then true else trialDivDivPos n fuel (d + 2) bound)

/-- Instrumented mirror of `is_prime` that returns `true` iff every
divisor of a modulo operation evaluated by `is_prime n` (the constant `2`
in `n % 2 == 0` and each trial divisor) is nonzero. -/
def isPrimeDivPos (n : Nat) : Bool :=
  if n = 2 ∨ n = 3 then true
  else
    decide ((0 : Nat) < 2) &&
      (if n % 2 = 0 ∨ n ≤ 1 then true
       else trialDivDivPos n (usqrt n + 2) 3 (usqrt n))

/-!
### Checked (u64-faithful) embedding

The definitions above use exact `Nat` arithmetic; the `u64` source agrees
with them only while no intermediate value reaches `2^64`.  The `…Chk`
definitions below are the same functions with every arithmetic step that
the Rust code performs on `u64` guarded by an explicit `< 2^64` check:
they return `none` exactly when a debug build would panic with an
overflow (on the same inputs a release build wraps and either diverges or
searches erratically, so no boolean/number is correctly returned either
way).  A `some` result is the value both build modes actually compute. -/

/-- Checked mirror of the `usqrt` loop: the sums `low + high` and products
`mid * mid` are guarded by `< 2^64 = 18446744073709551616`. -/
def usqrtGoChk (n : Nat) : Nat → Nat → Nat → Nat → Option Nat
  | 0, _, high, mid =>
      if mid * mid < 18446744073709551616 then
        if mid * mid = n then some mid else some high
      else none
  | fuel + 1, low, high, mid =>
      if low < high then
        if low + high < 18446744073709551616 then
          if (low + high) / 2 * ((low + high) / 2) < 18446744073709551616 then
            if (low + high) / 2 * ((low + high) / 2) = n then
              some ((low + high) / 2)
            else if n < (low + high) / 2 * ((low + high) / 2) then
              usqrtGoChk n fuel low ((low + high) / 2 - 1) ((low + high) / 2)
            else usqrtGoChk n fuel ((low + high) / 2 + 1) high ((low + high) / 2)
          else none
        else none
      else
        if mid * mid < 18446744073709551616 then
          if mid * mid = n then some mid else some high
        else none

/-- Checked mirror of `fn usqrt`: the pre-loop `low + high = 1 + n` is
guarded too. -/
def usqrtChk (n : Nat) : Option Nat :=
  if 1 + n < 18446744073709551616 then
    usqrtGoChk n (n + 2) 1 n ((1 + n) / 2)
  else none

/-- Checked mirror of the trial-division iterator (the step `d + 2` is
guarded). -/
def trialDivChk (n : Nat) : Nat → Nat → Nat → Option Bool
  | 0, _, _ => some true
  | fuel + 1, d, bound =>
      if bound < d then some true
      else if n % d = 0 then some false
      else
        if d + 2 < 18446744073709551616 then trialDivChk n fuel (d + 2) bound
        else none

/-- Checked mirror of `fn is_prime` (the range end `upper + 1` is
guarded). -/
def is_primeChk (n : Nat) : Option Bool :=
  if n = 2 ∨ n = 3 then some true
  else if n % 2 = 0 ∨ n ≤ 1 then some false
  else
    match usqrtChk n with
    | none => none
    | some upper =>
        if upper + 1 < 18446744073709551616 then
          trialDivChk n (upper + 2) 3 upper
        else none

/-- Checked mirror of the `next_prime` search loop (the step `n + 2` is
guarded); `none` on fuel exhaustion, so a `some` is an actual result. -/
def npLoopChk : Nat → Nat → Option Nat
  | 0, _ => none
  | fuel + 1, n =>
      match is_primeChk n with
      | none => none
      | some b =>
          if b then some n
          else
            if n + 2 < 18446744073709551616 then npLoopChk fuel (n + 2)
            else none

/-- Checked mirror of `pub fn next_prime` (the even-input `n + 1` is
guarded). -/
def next_primeChk (n : Nat) : Option Nat :=
  if n ≤ 2 then some 2
  else if n % 2 = 0 then
    if n + 1 < 18446744073709551616 then npLoopChk (n + 1) (n + 1)
    else none
  else npLoopChk n n

/-! ### Helper lemmas about `usqrt` -/

/-- On a perfect square `k * k`, the binary search always lands exactly on
`k`, provided the bracket `[low, high]` contains `k`. -/
theorem usqrtGo_mul_self (k : Nat) :
    ∀ fuel low high mid, high + 1 - low ≤ fuel → low ≤ k → k ≤ high →
      usqrtGo (k * k) fuel low high mid = k := by
  intro fuel
  induction fuel with
  | zero =>
      intro low high mid hf hl hh
      exfalso; omega
  | succ f ih =>
      intro low high mid hf hl hh
      simp only [usqrtGo]
      by_cases hlh : low < high
      · rw [if_pos hlh]
        have hml : low ≤ (low + high) / 2 := by omega
        have hmh : (low + high) / 2 ≤ high := by omega
        set m := (low + high) / 2 with hm
        by_cases heq : m * m = k * k
        · rw [if_pos heq]
          exact Nat.mul_self_inj.mp heq
        · rw [if_neg heq]
          by_cases hgt : k * k < m * m
          · rw [if_pos hgt]
            have hkm : k < m := by
              rcases Nat.lt_or_ge k m with h | h
              · exact h
              · exact absurd (Nat.mul_le_mul h h) (by omega)
            exact ih low (m - 1) m (by omega) hl (by omega)
          · rw [if_neg hgt]
            have hmk : m < k := by
              rcases Nat.lt_trichotomy m k with h | h | h
              · exact h
              · exact absurd (by rw [h]) heq
              · exact absurd (Nat.mul_le_mul (Nat.le_of_lt h) (Nat.le_of_lt h))
                  (by omega)
            exact ih (m + 1) high m (by omega) (by omega) hh
      · rw [if_neg hlh]
        have hle : low = k ∧ high = k := by omega
        by_cases hmid : mid * mid = k * k
        · rw [if_pos hmid]
          exact Nat.mul_self_inj.mp hmid
        · rw [if_neg hmid]
          exact hle.2

/-- On a non-square `n`, the binary search converges to `Nat.sqrt n` or
`Nat.sqrt n + 1`, provided the bracket respects the invariant
`low ≤ Nat.sqrt n + 1` and `Nat.sqrt n ≤ high`. -/
theorem usqrtGo_nonsquare (n : Nat) (hns : ∀ m : Nat, m * m ≠ n) :
    ∀ fuel low high mid, high + 1 - low ≤ fuel →
      low ≤ Nat.sqrt n + 1 → Nat.sqrt n ≤ high →
      Nat.sqrt n ≤ usqrtGo n fuel low high mid ∧
        usqrtGo n fuel low high mid ≤ Nat.sqrt n + 1 := by
  intro fuel
  induction fuel with
  | zero =>
      intro low high mid hf hl hh
      simp only [usqrtGo]
      rw [if_neg (hns mid)]
      omega
  | succ f ih =>
      intro low high mid hf hl hh
      simp only [usqrtGo]
      by_cases hlh : low < high
      · rw [if_pos hlh]
        have hml : low ≤ (low + high) / 2 := by omega
        have hmh : (low + high) / 2 ≤ high := by omega
        set m := (low + high) / 2 with hm
        rw [if_neg (hns m)]
        by_cases hgt : n < m * m
        · rw [if_pos hgt]
          have hsm : Nat.sqrt n < m := by
            rcases Nat.lt_or_ge (Nat.sqrt n) m with h | h
            · exact h
            · exact absurd (Nat.le_trans (Nat.mul_le_mul h h) (Nat.sqrt_le n))
                (by omega)
          exact ih low (m - 1) m (by omega) hl (by omega)
        · rw [if_neg hgt]
          have hms : m ≤ Nat.sqrt n := Nat.le_sqrt.mpr (by omega)
          exact ih (m + 1) high m (by omega) (by omega) hh
      · rw [if_neg hlh]
        rw [if_neg (hns mid)]
        omega

/-- `usqrt (k * k) = k`: shared helper behind the perfect-square claims. -/
theorem usqrt_mul_self (k : Nat) : usqrt (k * k) = k := by
  rcases Nat.eq_zero_or_pos k with rfl | hk
  · decide
  · exact usqrtGo_mul_self k (k * k + 2) 1 (k * k) ((1 + k * k) / 2)
      (by omega) hk (Nat.le_mul_of_pos_left k hk)

/-- `usqrt n` always lies between `⌊√n⌋` and `⌈√n⌉` (for `n ≥ 1`). -/
theorem usqrt_between (n : Nat) (hn : 1 ≤ n) :
    Nat.sqrt n ≤ usqrt n ∧ usqrt n ≤ ceilSqrt n := by
  by_cases hsq : ∃ m : Nat, m * m = n
  · obtain ⟨k, rfl⟩ := hsq
    rw [usqrt_mul_self, ceilSqrt, Nat.sqrt_eq, if_pos rfl]
    omega
  · push_neg at hsq
    have hc : ceilSqrt n = Nat.sqrt n + 1 := by
      rw [ceilSqrt, if_neg (hsq (Nat.sqrt n))]
    rw [hc]
    exact usqrtGo_nonsquare n hsq (n + 2) 1 n ((1 + n) / 2) (by omega)
      (by omega) (Nat.sqrt_le_self n)

/-! ### Helper lemmas about `is_prime` -/

/-- The trial-division loop, given enough fuel, returns `true` iff no
candidate divisor of the same parity as `d` in `[d, bound]` divides `n`. -/
theorem trialDiv_eq_true_iff (n : Nat) :
    ∀ fuel d bound, bound + 1 ≤ d + 2 * fuel →
      (trialDiv n fuel d bound = true ↔
        ∀ e, d ≤ e → e ≤ bound → e % 2 = d % 2 → n % e ≠ 0) := by
  intro fuel
  induction fuel with
  | zero =>
      intro d bound hf
      refine iff_of_true rfl ?_
      intro e hde heb _
      exfalso; omega
  | succ f ih =>
      intro d bound hf
      simp only [trialDiv]
      by_cases hbd : bound < d
      · rw [if_pos hbd]
        refine iff_of_true rfl ?_
        intro e hde heb _
        exfalso; omega
      · rw [if_neg hbd]
        by_cases hmod : n % d = 0
        · rw [if_pos hmod]
          refine iff_of_false (by simp) ?_
          intro h
          exact h d (Nat.le_refl d) (by omega) rfl hmod
        · rw [if_neg hmod]
          rw [ih (d + 2) bound (by omega)]
          constructor
          · intro h e hde heb hpar
            rcases Nat.eq_or_lt_of_le hde with rfl | hlt
            · exact hmod
            · exact h e (by omega) heb (by omega)
          · intro h e hde heb hpar
            exact h e (by omega) heb (by omega)

/-- `is_prime` agrees with mathematical primality: shared helper behind
the primality claims. -/
theorem is_prime_eq_true_iff (n : Nat) : is_prime n = true ↔ Nat.Prime n := by
  unfold is_prime
  by_cases h23 : n = 2 ∨ n = 3
  · rcases h23 with rfl | rfl
    · simpa using Nat.prime_two
    · simpa using Nat.prime_three
  · rw [if_neg h23]
    by_cases heo : n % 2 = 0 ∨ n ≤ 1
    · rw [if_pos heo]
      refine iff_of_false (by simp) ?_
      intro hp
      rcases hp.eq_two_or_odd with rfl | hodd
      · exact h23 (Or.inl rfl)
      · have := hp.two_le
        omega
    · rw [if_neg heo]
      push_neg at h23 heo
      have h5 : 5 ≤ n := by omega
      have hodd : n % 2 = 1 := by omega
      rw [trialDiv_eq_true_iff n (usqrt n + 2) 3 (usqrt n) (by omega)]
      have husq := usqrt_between n (by omega)
      have hceil : ceilSqrt n ≤ Nat.sqrt n + 1 := by
        rw [ceilSqrt]; split <;> omega
      have hsqrt_small : Nat.sqrt n + 1 < n := by
        have h1 : Nat.sqrt n < n - 1 := by
          rw [Nat.sqrt_lt]
          have h2 : 2 * (n - 1) ≤ (n - 1) * (n - 1) :=
            Nat.mul_le_mul_right (n - 1) (by omega)
          omega
        omega
      constructor
      · intro h
        by_contra hnp
        have hqp : n.minFac.Prime := Nat.minFac_prime (by omega)
        have hqn : n.minFac ≠ n := fun he => hnp (he ▸ hqp)
        obtain ⟨c, hc⟩ := Nat.minFac_dvd n
        have hc0 : c ≠ 0 := by
          intro h0; rw [h0, Nat.mul_zero] at hc; omega
        have hc1 : c ≠ 1 := by
          intro h1; rw [h1, Nat.mul_one] at hc; exact hqn hc.symm
        have hcd : c ∣ n := ⟨n.minFac, hc.trans (Nat.mul_comm _ _)⟩
        have hle : n.minFac ≤ c := Nat.minFac_le_of_dvd (by omega) hcd
        have hqq : n.minFac * n.minFac ≤ n := by
          calc n.minFac * n.minFac ≤ n.minFac * c := Nat.mul_le_mul_left _ hle
            _ = n := hc.symm
        have hqs : n.minFac ≤ usqrt n :=
          Nat.le_trans (Nat.le_sqrt.mpr hqq) husq.1
        have hqodd : n.minFac % 2 = 1 := by
          rcases hqp.eq_two_or_odd with h2 | h1
          · exfalso; rw [h2] at hc; omega
          · exact h1
        have hq3 : 3 ≤ n.minFac := by
          have := hqp.two_le
          omega
        exact h n.minFac hq3 hqs (by omega)
          (Nat.mod_eq_zero_of_dvd (Nat.minFac_dvd n))
      · intro hp e he3 heu hepar hemod
        have hed : e ∣ n := Nat.dvd_of_mod_eq_zero hemod
        rcases (Nat.Prime.eq_one_or_self_of_dvd hp e hed) with h1 | hself
        · omega
        · have : e < n := by
            have := Nat.le_trans heu (Nat.le_trans husq.2 hceil)
            omega
          omega

/-! ### Helper lemmas about `next_prime` -/

/-- From an odd start `m ≥ 3`, the search loop returns the least prime
`≥ m`, provided the fuel covers the distance to some prime. -/
theorem npLoop_least :
    ∀ fuel m, m % 2 = 1 → 3 ≤ m →
      (∃ p, Nat.Prime p ∧ m ≤ p ∧ p < m + 2 * fuel) →
      Nat.Prime (npLoop fuel m) ∧ m ≤ npLoop fuel m ∧
        ∀ q, Nat.Prime q → m ≤ q → npLoop fuel m ≤ q := by
  intro fuel
  induction fuel with
  | zero =>
      intro m _ _ hex
      obtain ⟨p, _, hp1, hp2⟩ := hex
      exfalso; omega
  | succ f ih =>
      intro m hm2 hm3 hex
      simp only [npLoop]
      by_cases hpm : is_prime m
      · rw [if_pos hpm]
        have hp := (is_prime_eq_true_iff m).mp hpm
        exact ⟨hp, Nat.le_refl m, fun q _ hq => hq⟩
      · rw [if_neg hpm]
        have hnp : ¬ Nat.Prime m := fun hp =>
          hpm ((is_prime_eq_true_iff m).mpr hp)
        have hstep : ∀ q, Nat.Prime q → m ≤ q → m + 2 ≤ q := by
          intro q hq hmq
          rcases Nat.eq_or_lt_of_le hmq with rfl | hlt
          · exact absurd hq hnp
          · rcases Nat.eq_or_lt_of_le hlt with he | hlt2
            · exfalso
              rcases hq.eq_two_or_odd with rfl | hqodd
              · omega
              · omega
            · omega
        obtain ⟨p, hp, hp1, hp2⟩ := hex
        have ih2 := ih (m + 2) (by omega) (by omega)
          ⟨p, hp, hstep p hp hp1, by omega⟩
        exact ⟨ih2.1, by omega, fun q hq hmq => ih2.2.2 q hq (hstep q hq hmq)⟩

/-- `next_prime n` is the least prime `≥ n`: shared helper behind the
`next_prime` claims. -/
theorem next_prime_least (n : Nat) :
    Nat.Prime (next_prime n) ∧ n ≤ next_prime n ∧
      ∀ q, Nat.Prime q → n ≤ q → next_prime n ≤ q := by
  unfold next_prime
  by_cases h2 : n ≤ 2
  · rw [if_pos h2]
    exact ⟨Nat.prime_two, h2, fun q hq _ => hq.two_le⟩
  · rw [if_neg h2]
    by_cases he : n % 2 = 0
    · rw [if_pos he]
      show Nat.Prime (npLoop (n + 1) (n + 1)) ∧ n ≤ npLoop (n + 1) (n + 1) ∧
        ∀ q, Nat.Prime q → n ≤ q → npLoop (n + 1) (n + 1) ≤ q
      have hm2 : (n + 1) % 2 = 1 := by omega
      have hm3 : 3 ≤ n + 1 := by omega
      obtain ⟨p, hp, hp1, hp2⟩ :=
        Nat.exists_prime_lt_and_le_two_mul (n + 1) (by omega)
      have hl := npLoop_least (n + 1) (n + 1) hm2 hm3
        ⟨p, hp, by omega, by omega⟩
      have hnn : ∀ q, Nat.Prime q → n ≤ q → n + 1 ≤ q := by
        intro q hq hnq
        rcases Nat.eq_or_lt_of_le hnq with rfl | hlt
        · exfalso
          rcases hq.eq_two_or_odd with rfl | hqodd
          · omega
          · omega
        · omega
      exact ⟨hl.1, by omega, fun q hq hnq => hl.2.2 q hq (hnn q hq hnq)⟩
    · rw [if_neg he]
      obtain ⟨p, hp, hp1, hp2⟩ :=
        Nat.exists_prime_lt_and_le_two_mul n (by omega)
      exact npLoop_least n n (by omega) (by omega) ⟨p, hp, by omega, by omega⟩

/-! ### Helper lemmas about the overflow and divisor checkers -/

/-- Once the bracket is below `2^32`, every later sum and product of the
binary search fits in `u64`. -/
theorem usqrtGoOk_of_bounds (n : Nat) :
    ∀ fuel low high mid, 1 ≤ low → high ≤ 4294967295 → mid ≤ 4294967295 →
      usqrtGoOk n fuel low high mid = true := by
  intro fuel
  induction fuel with
  | zero =>
      intro low high mid hl hh hm
      simp only [usqrtGoOk, decide_eq_true_eq]
      have := Nat.mul_le_mul hm hm
      omega
  | succ f ih =>
      intro low high mid hl hh hm
      simp only [usqrtGoOk]
      by_cases hlh : low < high
      · rw [if_pos hlh]
        have hm2 : (low + high) / 2 ≤ 4294967295 := by omega
        have hmm := Nat.mul_le_mul hm2 hm2
        simp only [Bool.and_eq_true, decide_eq_true_eq]
        refine ⟨by omega, by omega, ?_⟩
        split
        · rfl
        · split
          · exact ih low ((low + high) / 2 - 1) ((low + high) / 2)
              hl (by omega) hm2
          · exact ih ((low + high) / 2 + 1) high ((low + high) / 2)
              (by omega) hh hm2
      · rw [if_neg hlh]
        simp only [decide_eq_true_eq]
        have := Nat.mul_le_mul hm hm
        omega

/-- The trial-division divisor checker holds whenever the start divisor is
positive (the step `+2` keeps it positive). -/
theorem trialDivDivPos_of_pos (n : Nat) :
    ∀ fuel d bound, 1 ≤ d → trialDivDivPos n fuel d bound = true := by
  intro fuel
  induction fuel with
  | zero =>
      intro d bound _
      rfl
  | succ f ih =>
      intro d bound hd
      simp only [trialDivDivPos]
      by_cases hbd : bound < d
      · rw [if_pos hbd]
      · rw [if_neg hbd]
        simp only [Bool.and_eq_true, decide_eq_true_eq]
        refine ⟨by omega, ?_⟩
        split
        · rfl
        · exact ih (d + 2) bound (by omega)

/-! ### Helper lemmas about the checked embedding -/

/-- The Mersenne prime `2^61 - 1`, a prime above `2^33 - 1` (where the
u64 `usqrt` starts to overflow), certified by the Lucas–Lehmer test. -/
theorem prime_mersenne_61 : Nat.Prime 2305843009213693951 := by
  have h : mersenne 61 = 2305843009213693951 := by norm_num [mersenne]
  exact h ▸ lucas_lehmer_sufficiency 61 (by norm_num) (by norm_num)

/-- On a bracket that either is already below `2^32` or is the initial
`[1, n]` with `4 ≤ n ≤ 2^33 - 2`, the checked binary search never
overflows and agrees with the exact one. -/
theorem usqrtGoChk_eq (n : Nat) (hn : n ≤ 8589934590) :
    ∀ fuel low high mid, 1 ≤ low →
      (high ≤ 4294967295 ∨ (low = 1 ∧ high = n ∧ 4 ≤ n)) →
      mid ≤ 4294967295 →
      usqrtGoChk n fuel low high mid = some (usqrtGo n fuel low high mid) := by
  intro fuel
  induction fuel with
  | zero =>
      intro low high mid hl hinv hm
      have hmm := Nat.mul_le_mul hm hm
      simp only [usqrtGoChk, usqrtGo]
      rw [if_pos (by omega : mid * mid < 18446744073709551616)]
      by_cases he : mid * mid = n
      · rw [if_pos he, if_pos he]
      · rw [if_neg he, if_neg he]
  | succ f ih =>
      intro low high mid hl hinv hm
      simp only [usqrtGoChk, usqrtGo]
      by_cases hlh : low < high
      · rw [if_pos hlh, if_pos hlh]
        have hsum : low + high < 18446744073709551616 := by
          rcases hinv with hh | ⟨h1, h2, _⟩ <;> omega
        have hm2 : (low + high) / 2 ≤ 4294967295 := by
          rcases hinv with hh | ⟨h1, h2, _⟩ <;> omega
        have hmm := Nat.mul_le_mul hm2 hm2
        rw [if_pos hsum]
        rw [if_pos (by omega :
          (low + high) / 2 * ((low + high) / 2) < 18446744073709551616)]
        by_cases h1 : (low + high) / 2 * ((low + high) / 2) = n
        · rw [if_pos h1, if_pos h1]
        · rw [if_neg h1, if_neg h1]
          by_cases h2 : n < (low + high) / 2 * ((low + high) / 2)
          · rw [if_pos h2, if_pos h2]
            exact ih low ((low + high) / 2 - 1) ((low + high) / 2)
              hl (Or.inl (by omega)) hm2
          · rcases hinv with hh | ⟨hx1, hx2, hx4⟩
            · rw [if_neg h2, if_neg h2]
              exact ih ((low + high) / 2 + 1) high ((low + high) / 2)
                (by omega) (Or.inl hh) hm2
            · exfalso
              subst hx1; subst hx2
              have h2t : 2 * ((1 + high) / 2) ≤
                  (1 + high) / 2 * ((1 + high) / 2) :=
                Nat.mul_le_mul_right _ (by omega)
              omega
      · rw [if_neg hlh, if_neg hlh]
        have hmm := Nat.mul_le_mul hm hm
        rw [if_pos (by omega : mid * mid < 18446744073709551616)]
        by_cases he : mid * mid = n
        · rw [if_pos he, if_pos he]
        · rw [if_neg he, if_neg he]

/-- For `n ≤ 2^33 - 2` the checked `usqrt` returns exactly the exact
embedding's value (no overflow happens). -/
theorem usqrtChk_eq (n : Nat) (hn : n ≤ 8589934590) :
    usqrtChk n = some (usqrt n) := by
  by_cases h4 : n < 4
  · interval_cases n <;> decide
  · unfold usqrtChk usqrt
    rw [if_pos (by omega : 1 + n < 18446744073709551616)]
    exact usqrtGoChk_eq n hn (n + 2) 1 n ((1 + n) / 2) (Nat.le_refl 1)
      (Or.inr ⟨rfl, rfl, by omega⟩) (by omega)

/-- For a bound below `2^32` the checked trial division agrees with the
exact one (the step `d + 2` never overflows). -/
theorem trialDivChk_eq (n : Nat) :
    ∀ fuel d bound, bound ≤ 4294967295 →
      trialDivChk n fuel d bound = some (trialDiv n fuel d bound) := by
  intro fuel
  induction fuel with
  | zero =>
      intro d bound _
      rfl
  | succ f ih =>
      intro d bound hb
      simp only [trialDivChk, trialDiv]
      by_cases h1 : bound < d
      · rw [if_pos h1, if_pos h1]
      · rw [if_neg h1, if_neg h1]
        by_cases h2 : n % d = 0
        · rw [if_pos h2, if_pos h2]
        · rw [if_neg h2, if_neg h2]
          rw [if_pos (by omega : d + 2 < 18446744073709551616)]
          exact ih (d + 2) bound hb

/-- For every input whose odd branch stays in the no-overflow domain
(`n` odd implies `n ≤ 2^33 - 2`), the checked `is_prime` terminates
without overflow and returns exactly the exact embedding's boolean. -/
theorem is_primeChk_eq (n : Nat) (hn : n % 2 = 1 → n ≤ 8589934590) :
    is_primeChk n = some (is_prime n) := by
  unfold is_primeChk is_prime
  by_cases h23 : n = 2 ∨ n = 3
  · rw [if_pos h23, if_pos h23]
  · rw [if_neg h23, if_neg h23]
    by_cases heo : n % 2 = 0 ∨ n ≤ 1
    · rw [if_pos heo, if_pos heo]
    · rw [if_neg heo, if_neg heo]
      push_neg at heo h23
      have hodd : n % 2 = 1 := by omega
      have hbound := hn hodd
      have h5 : 5 ≤ n := by omega
      have hub : usqrt n ≤ 92682 := by
        have h1 := (usqrt_between n (by omega)).2
        have h2 : ceilSqrt n ≤ Nat.sqrt n + 1 := by
          rw [ceilSqrt]; split <;> omega
        have h3 : Nat.sqrt n < 92682 := by
          rw [Nat.sqrt_lt]
          have h4 : (92682 : Nat) * 92682 = 8589953124 := by norm_num
          omega
        omega
      rw [usqrtChk_eq n hbound]
      show (if usqrt n + 1 < 18446744073709551616 then
          trialDivChk n (usqrt n + 2) 3 (usqrt n) else none) =
        some (trialDiv n (usqrt n + 2) 3 (usqrt n))
      rw [if_pos (by omega)]
      exact trialDivChk_eq n (usqrt n + 2) 3 (usqrt n) (by omega)

/-- One step of the checked search loop on a prime candidate in the
no-overflow domain returns the candidate itself. -/
theorem npLoopChk_prime (fuel n : Nat) (hp : Nat.Prime n)
    (hn : n % 2 = 1 → n ≤ 8589934590) :
    npLoopChk (fuel + 1) n = some n := by
  simp only [npLoopChk]
  rw [is_primeChk_eq n hn]
  rw [(is_prime_eq_true_iff n).mpr hp]
  rfl

/-! ### The claims -/

/-- C1: for every input `n`, `next_prime n` returns the smallest prime
`p` with `p ≥ n` (the embedding uses exact arithmetic, which matches the
u64 semantics exactly when a qualifying prime is representable and no
intermediate arithmetic overflows). -/
theorem C1_next_prime_least (n : Nat) :
    Nat.Prime (next_prime n) ∧ n ≤ next_prime n ∧
      ∀ q, Nat.Prime q → n ≤ q → next_prime n ≤ q :=
  next_prime_least n

/-- C1 witness: the theorem applied at `n = 10`, `q = 13`. -/
theorem C1_witness :
    Nat.Prime (next_prime 10) ∧ 10 ≤ next_prime 10 ∧ next_prime 10 ≤ 13 :=
  ⟨(C1_next_prime_least 10).1, (C1_next_prime_least 10).2.1,
    (C1_next_prime_least 10).2.2 13 (by norm_num) (by norm_num)⟩

/-- C2 counterexample: the claim ranges over every u64 input, but at the
odd composite `2^64 - 1` the u64 code never returns `false`: its first
intermediate `low + high = 1 + n` overflows, so a debug build panics and
a release build wraps the sum to `0` and loops forever with `mid = 0`.
The checked embedding records this as `none` instead of a boolean. -/
theorem C2_counterexample :
    ¬ Nat.Prime 18446744073709551615 ∧
      is_primeChk 18446744073709551615 = none :=
  ⟨by norm_num, by decide⟩

/-- C2 (amended): on every input whose odd branch stays in the
no-overflow domain of `usqrt` (`n` odd implies `n ≤ 2^33 - 2`; even and
tiny inputs never reach `usqrt`), the u64 code runs without overflow,
returns the exact embedding's boolean, and that boolean is `true` exactly
when `n` is a prime number. -/
theorem C2_is_prime_iff_prime_nooverflow (n : Nat)
    (hn : n % 2 = 1 → n ≤ 8589934590) :
    is_primeChk n = some (is_prime n) ∧ (is_prime n = true ↔ Nat.Prime n) :=
  ⟨is_primeChk_eq n hn, is_prime_eq_true_iff n⟩

/-- C2 witness: the amended theorem applied at `n = 13`. -/
theorem C2_witness :
    ((13 : Nat) % 2 = 1 → (13 : Nat) ≤ 8589934590) ∧
      (is_primeChk 13 = some (is_prime 13) ∧
        (is_prime 13 = true ↔ Nat.Prime 13)) :=
  ⟨by decide, C2_is_prime_iff_prime_nooverflow 13 (by decide)⟩

/-- C3 counterexample record: at `n = 3` the code returns `1`, whose
square is below `3`, so `usqrt` does not return the smallest `r` with
`r * r ≥ n` (the ceiling square root, which is `2` here). -/
theorem C3_usqrt_not_ceiling_at_3 :
    usqrt 3 = 1 ∧ usqrt 3 * usqrt 3 < 3 := by decide

/-- C4: `usqrt n` is never below the integer square root: for `n ≥ 1`,
`⌊√n⌋ ≤ usqrt n`, `(usqrt n + 1)^2 > n`, and `usqrt n ≤ ⌈√n⌉` — the lower
bound that makes the trial-division bound of `is_prime` sufficient. -/
theorem C4_usqrt_bounds (n : Nat) (hn : 1 ≤ n) :
    Nat.sqrt n ≤ usqrt n ∧ n < (usqrt n + 1) * (usqrt n + 1) ∧
      usqrt n ≤ ceilSqrt n := by
  have h := usqrt_between n hn
  refine ⟨h.1, ?_, h.2⟩
  have h1 := Nat.lt_succ_sqrt n
  have h2 := Nat.mul_le_mul
    (Nat.succ_le_succ h.1) (Nat.succ_le_succ h.1)
  simp only [Nat.succ_eq_add_one] at h1 h2
  omega

/-- C4 witness: the theorem applied at `n = 7`. -/
theorem C4_witness :
    1 ≤ 7 ∧ (Nat.sqrt 7 ≤ usqrt 7 ∧ 7 < (usqrt 7 + 1) * (usqrt 7 + 1) ∧
      usqrt 7 ≤ ceilSqrt 7) :=
  ⟨by decide, C4_usqrt_bounds 7 (by decide)⟩

/-- C5 counterexample record: at `k = 2` the value just above the square,
`2 * 2 + 1 = 5`, maps to `usqrt 5 = 2`, not to `k + 1 = 3` as claimed. -/
theorem C5_usqrt_above_square_fails_at_2 :
    usqrt (2 * 2 + 1) = 2 ∧ usqrt (2 * 2 + 1) ≠ 2 + 1 := by decide

/-- C6: perfect squares round-trip exactly: `usqrt (k * k) = k`. -/
theorem C6_usqrt_roundtrip (k : Nat) : usqrt (k * k) = k :=
  usqrt_mul_self k

/-- C7: `next_prime` is idempotent. -/
theorem C7_next_prime_idempotent (n : Nat) :
    next_prime (next_prime n) = next_prime n := by
  have h1 := next_prime_least n
  have h2 := next_prime_least (next_prime n)
  exact Nat.le_antisymm (h2.2.2 (next_prime n) h1.1 (Nat.le_refl _)) h2.2.1

/-- C8 counterexample: the claim ranges over every prime u64 input, but
at the Mersenne prime `2^61 - 1` (≥ `2^33 - 1`) the u64 code does not
return the input: the first binary-search midpoint `(1 + n) / 2 = 2^60`
makes `mid * mid` overflow, so a debug build panics (checked embedding:
`none`) and a release build wraps into an erratic search instead of
computing `usqrt`. -/
theorem C8_counterexample :
    Nat.Prime 2305843009213693951 ∧
      next_primeChk 2305843009213693951 = none :=
  ⟨prime_mersenne_61, by decide⟩

/-- C8 (amended): every prime input in the no-overflow domain
(`n ≤ 2^33 - 2`) is returned unchanged, both by the checked u64 embedding
and by the exact one; in particular `next_prime 101 = 101`. -/
theorem C8_next_prime_fixed_on_primes_nooverflow (n : Nat)
    (hp : Nat.Prime n) (hn : n ≤ 8589934590) :
    next_primeChk n = some n ∧ next_prime n = n := by
  constructor
  · by_cases h2 : n ≤ 2
    · have he : n = 2 := by
        have := hp.two_le
        omega
      subst he
      rfl
    · have hodd : n % 2 = 1 := by
        rcases hp.eq_two_or_odd with rfl | h
        · omega
        · exact h
      unfold next_primeChk
      rw [if_neg h2, if_neg (by omega : ¬ n % 2 = 0)]
      obtain ⟨m, rfl⟩ : ∃ m, n = m + 1 := ⟨n - 1, by omega⟩
      exact npLoopChk_prime m (m + 1) hp (fun _ => hn)
  · have h := next_prime_least n
    exact Nat.le_antisymm (h.2.2 n hp (Nat.le_refl n)) h.2.1

/-- C8 witness: the amended theorem applied at the already-prime input
`101`. -/
theorem C8_witness :
    Nat.Prime 101 ∧ (101 : Nat) ≤ 8589934590 ∧
      (next_primeChk 101 = some 101 ∧ next_prime 101 = 101) := by
  have hp : Nat.Prime 101 := by norm_num
  exact ⟨hp, by decide,
    C8_next_prime_fixed_on_primes_nooverflow 101 hp (by decide)⟩

/-- C9 counterexample: at `n = 2^64 - 1` the very first intermediate
computation `low + high = 1 + n` already leaves the `u64` range, so it is
not true that the intermediate computations of `usqrt` stay within `u64`
for every `u64` input. -/
theorem C9_counterexample :
    usqrtOk 18446744073709551615 = false := by decide

/-- C9 (amended): the functions are total in the embedding, and the
intermediate sums and products of `usqrt` stay below `2^64` exactly up to
`n = 2^33 - 2 = 8589934590`; the first binary-search midpoint is
`(1 + n) / 2`, whose square reaches `2^64` from `n = 2^33 - 1` on. -/
theorem C9_usqrt_no_overflow_up_to_pow33 (n : Nat) (hn : n ≤ 8589934590) :
    usqrtOk n = true := by
  by_cases h4 : n < 4
  · interval_cases n <;> decide
  · simp only [usqrtOk, Bool.and_eq_true, decide_eq_true_eq]
    refine ⟨by omega, ?_⟩
    have hfuel : n + 2 = (n + 1) + 1 := rfl
    rw [hfuel]
    simp only [usqrtGoOk]
    rw [if_pos (by omega : 1 < n)]
    have hm2 : (1 + n) / 2 ≤ 4294967295 := by omega
    have hmm := Nat.mul_le_mul hm2 hm2
    have hge : n ≤ (1 + n) / 2 * ((1 + n) / 2) := by
      have h2t : 2 * ((1 + n) / 2) ≤ (1 + n) / 2 * ((1 + n) / 2) :=
        Nat.mul_le_mul_right _ (by omega)
      omega
    simp only [Bool.and_eq_true, decide_eq_true_eq]
    refine ⟨by omega, by omega, ?_⟩
    split
    · rfl
    · split
      · exact usqrtGoOk_of_bounds n (n + 1) 1 ((1 + n) / 2 - 1)
          ((1 + n) / 2) (Nat.le_refl 1) (by omega) hm2
      · omega

/-- C9 witness: the amended theorem applied at `n = 10`. -/
theorem C9_witness : 10 ≤ 8589934590 ∧ usqrtOk 10 = true :=
  ⟨by decide, C9_usqrt_no_overflow_up_to_pow33 10 (by decide)⟩

/-- C10: every modulo operation evaluated by `is_prime` has a nonzero
divisor: the constant `2`, and trial divisors drawn from `3, 5, 7, …`. -/
theorem C10_is_prime_divisors_nonzero (n : Nat) : isPrimeDivPos n = true := by
  unfold isPrimeDivPos
  split
  · rfl
  · simp only [Bool.and_eq_true, decide_eq_true_eq]
    refine ⟨by omega, ?_⟩
    split
    · rfl
    · exact trialDivDivPos_of_pos n (usqrt n + 2) 3 (usqrt n) (by omega)

example : usqrt 0 = 0 := by decide
example : usqrt 1 = 1 := by decide
example : usqrt 2 = 2 := by decide
example : usqrt 3 = 1 := by decide
example : usqrt 5 = 2 := by decide
example : usqrt 9 = 3 := by decide
example : usqrt 25 = 5 := by decide
example : is_prime 2 = true := by decide
example : is_prime 9 = false := by decide
example : is_prime 101 = true := by decide
example : next_prime 4 = 5 := by decide
example : next_prime 101 = 101 := by decide
example : next_prime 90 = 97 := by decide
